import Mathlib

/-!
Verification development for the tag-generator core
(`src/utils/retry.ts`, `src/utils/tagHelpers.ts` = `src/unnamed/part_005`,
`src/services/llmService.ts` = `src/unnamed/part_002`,
`src/hooks/useBatchGenerator.ts` / `useTagData.ts` = `src/unnamed/part_001`,
`src/hooks/useSingleGenerator.ts` = `src/unnamed/part_000`,
`src/services/geminiProvider.ts`).

Shallow embedding conventions:
* JavaScript strings are modelled by `String` / `List Char` (JS indexes UTF-16
  code units; on the Basic-Multilingual-Plane data this code handles, one code
  unit = one `Char`, so lengths and `charAt` agree).
* `String.prototype.toLowerCase` is modelled by `jsToLower` (ASCII case
  mapping; the registered tag keys are ASCII/Chinese, where JS and this model
  agree), `trim` by `jsTrim`, `split` by `jsSplit`.
* A thrown JS error is modelled by `JsErr` carrying its `name` and `message`
  (a `DOMException("Aborted", "AbortError")` has name `"AbortError"`).
* `async` control flow is deterministic state passing: an asynchronous
  operation becomes a function from the attempt number (or the item id) to an
  `Except JsErr` outcome, and each embedded function additionally returns the
  observable trace the claims talk about (attempt counts, delays, state).
-/

/-- A JavaScript error value: `name` (e.g. `"AbortError"`, `"Error"`,
`"TypeError"`) and `message`. -/
structure JsErr where
  name : String
  message : String
deriving Repr, DecidableEq

/-- The distinguished cancellation outcome
`new DOMException("Aborted", "AbortError")` thrown by the providers. -/
def abortErr : JsErr := { name := "AbortError", message := "Aborted" }

/-- ASCII model of `String.prototype.toLowerCase`. -/
def jsToLower (s : String) : String := String.mk (s.data.map Char.toLower)

/-- Splitting a character list at a separator; `[[]]` on the empty list,
matching JS `"".split(sep) = [""]`. -/
def splitOnCharAux (sep : Char) : List Char → List (List Char)
  | [] => [[]]
  | c :: rest =>
      match splitOnCharAux sep rest with
      | [] => if c = sep then [[], []] else [[c]]
      | h :: t => if c = sep then [] :: h :: t else (c :: h) :: t

/-- Model of `String.prototype.split(sep)` for a one-character separator. -/
def jsSplit (sep : Char) (s : String) : List String :=
  (splitOnCharAux sep s.data).map String.mk

/-- Whitespace as removed by `String.prototype.trim` (ASCII part). -/
def isJsWhitespace (c : Char) : Bool :=
  c = ' ' || c = '\t' || c = '\n' || c = '\r'

/-- Model of `String.prototype.trim`. -/
def jsTrim (s : String) : String :=
  String.mk (((s.data.dropWhile isJsWhitespace).reverse.dropWhile
    isJsWhitespace).reverse)

/- ### Edit-Distance Matcher (`levenshteinDistance`, src/unnamed/part_005 lines 8-28) -/

/-- The DP table of the source: `levTable s t i j` is `d[i][j]` filled by the
two initialisation loops (`d[i][0] = i`, `d[0][j] = j`) and the nested loop
`d[i][j] = min(d[i-1][j]+1, d[i][j-1]+1, d[i-1][j-1]+cost)` with
`cost = (s.charAt(i-1) === t.charAt(j-1)) ? 0 : 1`.  `getD` with a default is
only exercised in range (`i ≤ s.length`, `j ≤ t.length`), where it coincides
with `charAt`. -/
def levTable (s t : List Char) : Nat → Nat → Nat
  | i, 0 => i
  | 0, j + 1 => j + 1
  | i + 1, j + 1 =>
      min (min (levTable s t i (j + 1) + 1) (levTable s t (i + 1) j + 1))
        (levTable s t i j + (if s.getD i default = t.getD j default then 0 else 1))

/-- `levenshteinDistance` (src/unnamed/part_005 lines 8-28): the three guard
clauses (`s === t`, `s.length === 0`, `t.length === 0`) followed by the DP
table lookup `d[s.length][t.length]`. -/
def levenshteinDistance (s t : String) : Nat :=
  if s = t then 0
  else if s.length = 0 then t.length
  else if t.length = 0 then s.length
  else levTable s.data t.data s.data.length t.data.length

/-- Reference recursive Levenshtein distance on lists (proof-side definition,
related to the source table by `levTable_eq`). -/
def lev : List Char → List Char → Nat
  | [], t => t.length
  | s, [] => s.length
  | a :: s, b :: t =>
      min (min (lev s (b :: t) + 1) (lev (a :: s) t + 1))
        (lev s t + (if a = b then 0 else 1))
termination_by s t => s.length + t.length
decreasing_by all_goals simp [List.length_cons] <;> omega

theorem lev_nil_left (t : List Char) : lev [] t = t.length := by
  cases t <;> simp [lev]

theorem lev_nil_right (s : List Char) : lev s [] = s.length := by
  cases s <;> simp [lev]

theorem lev_cons_cons (a b : Char) (s t : List Char) :
    lev (a :: s) (b :: t) =
      min (min (lev s (b :: t) + 1) (lev (a :: s) t + 1))
        (lev s t + (if a = b then 0 else 1)) := by
  rw [lev]

theorem lev_self (s : List Char) : lev s s = 0 := by
  induction s with
  | nil => simp [lev]
  | cons a s ih =>
      rw [lev_cons_cons, ih]
      simp [Nat.min_def]

/-- An alignment of `s` with `t` using `n` paid single-character edit
operations (insertions, deletions, substitutions; matched characters are
free).  `Edits s t n` holds iff `s` can be transformed into `t` by some
sequence of `n` such operations. -/
inductive Edits : List Char → List Char → Nat → Prop
  | nil : Edits [] [] 0
  | keep {s t : List Char} {n : Nat} (a : Char) :
      Edits s t n → Edits (a :: s) (a :: t) n
  | subst {s t : List Char} {n : Nat} {a b : Char} :
      a ≠ b → Edits s t n → Edits (a :: s) (b :: t) (n + 1)
  | delete {s t : List Char} {n : Nat} (a : Char) :
      Edits s t n → Edits (a :: s) t (n + 1)
  | insert {s t : List Char} {n : Nat} (b : Char) :
      Edits s t n → Edits s (b :: t) (n + 1)

theorem edits_refl (s : List Char) : Edits s s 0 := by
  induction s with
  | nil => exact Edits.nil
  | cons a s ih => exact Edits.keep a ih

theorem edits_nil_left (t : List Char) : Edits [] t t.length := by
  induction t with
  | nil => exact Edits.nil
  | cons b t ih => exact Edits.insert b ih

theorem edits_nil_right (s : List Char) : Edits s [] s.length := by
  induction s with
  | nil => exact Edits.nil
  | cons a s ih => exact Edits.delete a ih

/-- The paid-operation count of an alignment bounds the length difference. -/
theorem edits_length_diff {s t : List Char} {n : Nat} (h : Edits s t n) :
    Nat.dist s.length t.length ≤ n := by
  induction h with
  | nil => simp [Nat.dist]
  | keep a _ ih => simp only [List.length_cons, Nat.dist] at *; omega
  | subst _ _ ih => simp only [List.length_cons, Nat.dist] at *; omega
  | delete a _ ih => simp only [List.length_cons, Nat.dist] at *; omega
  | insert b _ ih => simp only [List.length_cons, Nat.dist] at *; omega

/-- A zero-cost alignment only matches: the strings are equal. -/
theorem edits_zero_eq {s t : List Char} (h : Edits s t 0) : s = t := by
  generalize hn : 0 = n at h
  induction h with
  | nil => rfl
  | keep a _ ih => rw [ih hn]
  | subst _ _ _ => omega
  | delete _ _ _ => omega
  | insert _ _ _ => omega

/-- `lev` is a lower bound for every alignment cost. -/
theorem lev_le_of_edits {s t : List Char} {n : Nat} (h : Edits s t n) :
    lev s t ≤ n := by
  induction h with
  | nil => simp [lev]
  | keep a h ih =>
      rename_i s' t' n'
      have h1 : lev (a :: s') (a :: t') ≤ lev s' t' := by
        rw [lev_cons_cons]
        simpa using min_le_right
          (min (lev s' (a :: t') + 1) (lev (a :: s') t' + 1))
          (lev s' t' + (if a = a then 0 else 1))
      omega
  | subst hne h ih =>
      rename_i s' t' n' a b
      have h1 : lev (a :: s') (b :: t') ≤ lev s' t' + 1 := by
        rw [lev_cons_cons]
        have h2 := min_le_right
          (min (lev s' (b :: t') + 1) (lev (a :: s') t' + 1))
          (lev s' t' + (if a = b then 0 else 1))
        simpa [hne] using h2
      omega
  | delete a h ih =>
      rename_i s t n
      cases t with
      | nil =>
          rw [lev_nil_right] at *
          simp only [List.length_cons]
          omega
      | cons b t =>
          have h1 : lev (a :: s) (b :: t) ≤ lev s (b :: t) + 1 := by
            rw [lev_cons_cons]
            exact le_trans (min_le_left _ _) (min_le_left _ _)
          omega
  | insert b h ih =>
      rename_i s t n
      cases s with
      | nil =>
          rw [lev_nil_left] at *
          simp only [List.length_cons]
          omega
      | cons a s =>
          have h1 : lev (a :: s) (b :: t) ≤ lev (a :: s) t + 1 := by
            rw [lev_cons_cons]
            exact le_trans (min_le_left _ _) (min_le_right _ _)
          omega

/-- `lev` is achieved by some alignment. -/
theorem edits_lev (s t : List Char) : Edits s t (lev s t) := by
  induction s generalizing t with
  | nil => rw [lev_nil_left]; exact edits_nil_left t
  | cons a s ihs =>
      induction t with
      | nil => rw [lev_nil_right]; exact edits_nil_right (a :: s)
      | cons b t iht =>
          rw [lev_cons_cons]
          rcases min_choice (min (lev s (b :: t) + 1) (lev (a :: s) t + 1))
              (lev s t + (if a = b then 0 else 1)) with hm | hm <;> rw [hm]
          · rcases min_choice (lev s (b :: t) + 1) (lev (a :: s) t + 1) with
                hm2 | hm2 <;> rw [hm2]
            · exact Edits.delete a (ihs (b :: t))
            · exact Edits.insert b iht
          · by_cases hab : a = b
            · subst hab
              simpa using Edits.keep a (ihs t)
            · simpa [hab] using Edits.subst hab (ihs t)

/-- Alignments invert: each operation has a mirror operation. -/
theorem edits_symm {s t : List Char} {n : Nat} (h : Edits s t n) :
    Edits t s n := by
  induction h with
  | nil => exact Edits.nil
  | keep a _ ih => exact Edits.keep a ih
  | subst hne _ ih => exact Edits.subst (Ne.symm hne) ih
  | delete a _ ih => exact Edits.insert a ih
  | insert b _ ih => exact Edits.delete b ih

/-- Alignments compose: transforming `s` into `t` in `m` operations and `t`
into `u` in `n` operations yields a transformation of `s` into `u` in at most
`m + n` operations.  (Strong induction on `m + n + t.length`.) -/
theorem edits_trans :
    ∀ N s t u m n, m + n + t.length ≤ N → Edits s t m → Edits t u n →
      ∃ k, k ≤ m + n ∧ Edits s u k := by
  intro N
  induction N with
  | zero =>
      intro s t u m n hN h1 h2
      have hm : m = 0 := by omega
      have hn : n = 0 := by omega
      have ht : t = [] := List.length_eq_zero.mp (by omega)
      subst hm; subst hn; subst ht
      exact ⟨0, le_refl 0, (edits_zero_eq h1) ▸ h2⟩
  | succ N ih =>
      intro s t u m n hN h1 h2
      cases h1 with
      | nil =>
          exact ⟨n, by omega, h2⟩
      | @keep s1 t1 _ a h1' =>
          cases h2 with
          | @keep _ u1 _ _ h2' =>
              obtain ⟨k, hk, hE⟩ :=
                ih s1 t1 u1 m n (by simp at hN; omega) h1' h2'
              exact ⟨k, hk, Edits.keep a hE⟩
          | @subst _ u1 n1 _ c hne h2' =>
              obtain ⟨k, hk, hE⟩ :=
                ih s1 t1 u1 m n1 (by simp at hN; omega) h1' h2'
              by_cases hac : a = c
              · exact ⟨k, by omega, hac ▸ Edits.keep a hE⟩
              · exact ⟨k + 1, by omega, Edits.subst hac hE⟩
          | @delete _ _ n1 _ h2' =>
              obtain ⟨k, hk, hE⟩ :=
                ih s1 t1 u m n1 (by simp at hN; omega) h1' h2'
              exact ⟨k + 1, by omega, Edits.delete a hE⟩
          | @insert _ u1 n1 c h2' =>
              obtain ⟨k, hk, hE⟩ :=
                ih (a :: s1) (a :: t1) u1 m n1
                  (by simp only [List.length_cons] at hN ⊢; omega)
                  (Edits.keep a h1') h2'
              exact ⟨k + 1, by omega, Edits.insert c hE⟩
      | @subst s1 t1 m1 a b hne h1' =>
          cases h2 with
          | @keep _ u1 _ _ h2' =>
              obtain ⟨k, hk, hE⟩ :=
                ih s1 t1 u1 m1 n (by simp at hN; omega) h1' h2'
              exact ⟨k + 1, by omega, Edits.subst hne hE⟩
          | @subst _ u1 n1 _ c hne2 h2' =>
              obtain ⟨k, hk, hE⟩ :=
                ih s1 t1 u1 m1 n1 (by simp at hN; omega) h1' h2'
              by_cases hac : a = c
              · exact ⟨k, by omega, hac ▸ Edits.keep a hE⟩
              · exact ⟨k + 1, by omega, Edits.subst hac hE⟩
          | @delete _ _ n1 _ h2' =>
              obtain ⟨k, hk, hE⟩ :=
                ih s1 t1 u m1 n1 (by simp at hN; omega) h1' h2'
              exact ⟨k + 1, by omega, Edits.delete a hE⟩
          | @insert _ u1 n1 c h2' =>
              obtain ⟨k, hk, hE⟩ :=
                ih (a :: s1) (b :: t1) u1 (m1 + 1) n1
                  (by simp only [List.length_cons] at hN ⊢; omega)
                  (Edits.subst hne h1') h2'
              exact ⟨k + 1, by omega, Edits.insert c hE⟩
      | @delete s1 _ m1 a h1' =>
          obtain ⟨k, hk, hE⟩ := ih s1 t u m1 n (by omega) h1' h2
          exact ⟨k + 1, by omega, Edits.delete a hE⟩
      | @insert _ t1 m1 b h1' =>
          cases h2 with
          | @keep _ u1 _ _ h2' =>
              obtain ⟨k, hk, hE⟩ :=
                ih s t1 u1 m1 n (by simp at hN; omega) h1' h2'
              exact ⟨k + 1, by omega, Edits.insert b hE⟩
          | @subst _ u1 n1 _ c hne2 h2' =>
              obtain ⟨k, hk, hE⟩ :=
                ih s t1 u1 m1 n1 (by simp at hN; omega) h1' h2'
              exact ⟨k + 1, by omega, Edits.insert c hE⟩
          | @delete _ _ n1 _ h2' =>
              obtain ⟨k, hk, hE⟩ :=
                ih s t1 u m1 n1 (by simp at hN; omega) h1' h2'
              exact ⟨k, by omega, hE⟩
          | @insert _ u1 n1 c h2' =>
              obtain ⟨k, hk, hE⟩ :=
                ih s (b :: t1) u1 (m1 + 1) n1
                  (by simp only [List.length_cons] at hN ⊢; omega)
                  (Edits.insert b h1') h2'
              exact ⟨k + 1, by omega, Edits.insert c hE⟩

theorem edits_snoc_keep {s t : List Char} {n : Nat} (a : Char)
    (h : Edits s t n) : Edits (s ++ [a]) (t ++ [a]) n := by
  induction h with
  | nil => exact Edits.keep a Edits.nil
  | keep c _ ih => exact Edits.keep c ih
  | subst hne _ ih => exact Edits.subst hne ih
  | delete c _ ih => exact Edits.delete c ih
  | insert c _ ih => exact Edits.insert c ih

theorem edits_snoc_delete {s t : List Char} {n : Nat} (a : Char)
    (h : Edits s t n) : Edits (s ++ [a]) t (n + 1) := by
  induction h with
  | nil => exact Edits.delete a Edits.nil
  | keep c _ ih => exact Edits.keep c ih
  | subst hne _ ih => exact Edits.subst hne ih
  | delete c _ ih => exact Edits.delete c ih
  | insert c _ ih => exact Edits.insert c ih

theorem edits_snoc_insert {s t : List Char} {n : Nat} (b : Char)
    (h : Edits s t n) : Edits s (t ++ [b]) (n + 1) := by
  induction h with
  | nil => exact Edits.insert b Edits.nil
  | keep c _ ih => exact Edits.keep c ih
  | subst hne _ ih => exact Edits.subst hne ih
  | delete c _ ih => exact Edits.delete c ih
  | insert c _ ih => exact Edits.insert c ih

theorem edits_snoc_subst {s t : List Char} {n : Nat} {a b : Char}
    (hne : a ≠ b) (h : Edits s t n) : Edits (s ++ [a]) (t ++ [b]) (n + 1) := by
  induction h with
  | nil => exact Edits.subst hne Edits.nil
  | keep c _ ih => exact Edits.keep c ih
  | subst hne2 _ ih => exact Edits.subst hne2 ih
  | delete c _ ih => exact Edits.delete c ih
  | insert c _ ih => exact Edits.insert c ih

/-- Alignments are invariant under reversing both strings. -/
theorem edits_reverse {s t : List Char} {n : Nat} (h : Edits s t n) :
    Edits s.reverse t.reverse n := by
  induction h with
  | nil => exact Edits.nil
  | keep a _ ih => simpa using edits_snoc_keep a ih
  | subst hne _ ih => simpa using edits_snoc_subst hne ih
  | delete a _ ih => simpa using edits_snoc_delete a ih
  | insert b _ ih => simpa using edits_snoc_insert b ih

theorem lev_symm (s t : List Char) : lev s t = lev t s :=
  le_antisymm (lev_le_of_edits (edits_symm (edits_lev t s)))
    (lev_le_of_edits (edits_symm (edits_lev s t)))

theorem lev_triangle (s t u : List Char) : lev s u ≤ lev s t + lev t u := by
  obtain ⟨k, hk, hE⟩ := edits_trans (lev s t + lev t u + t.length) s t u
    (lev s t) (lev t u) (le_refl _) (edits_lev s t) (edits_lev t u)
  exact le_trans (lev_le_of_edits hE) hk

theorem lev_reverse (s t : List Char) : lev s.reverse t.reverse = lev s t :=
  le_antisymm (lev_le_of_edits (edits_reverse (edits_lev s t)))
    (by
      have h := lev_le_of_edits (edits_reverse (edits_lev s.reverse t.reverse))
      simpa using h)

theorem levTable_zero_right (s t : List Char) (i : Nat) :
    levTable s t i 0 = i := by
  rw [levTable]

theorem levTable_zero_left (s t : List Char) (j : Nat) :
    levTable s t 0 (j + 1) = j + 1 := by
  rw [levTable]

theorem rtake_succ {l : List Char} {i : Nat} (h : i < l.length) :
    (l.take (i + 1)).reverse = l[i] :: (l.take i).reverse := by
  rw [List.take_succ]
  simp [List.getElem?_eq_getElem h]

theorem getD_eq_getElem {l : List Char} {i : Nat} (h : i < l.length) :
    l.getD i default = l[i] := by
  simp [List.getD, List.getElem?_eq_getElem h]

/-- The DP table entry `d[i][j]` is the Levenshtein distance of the reversed
`i`- and `j`-prefixes. -/
theorem levTable_eq (s t : List Char) :
    ∀ i j, i ≤ s.length → j ≤ t.length →
      levTable s t i j = lev (s.take i).reverse (t.take j).reverse := by
  intro i
  induction i with
  | zero =>
      intro j hi hj
      cases j with
      | zero => simp [levTable_zero_right, lev_nil_left]
      | succ j =>
          simp only [levTable_zero_left, List.take_zero, List.reverse_nil,
            lev_nil_left, List.length_reverse, List.length_take]
          omega
  | succ i ihi =>
      intro j
      induction j with
      | zero =>
          intro hi hj
          simp only [levTable_zero_right, List.take_zero, List.reverse_nil,
            lev_nil_right, List.length_reverse, List.length_take]
          omega
      | succ j ihj =>
          intro hi hj
          have hi' : i < s.length := by omega
          have hj' : j < t.length := by omega
          have e1 := ihi (j + 1) (by omega) hj
          have e2 := ihj hi (by omega)
          have e3 := ihi j (by omega) (by omega)
          rw [levTable, e1, e2, e3, rtake_succ hi', rtake_succ hj',
            lev_cons_cons, getD_eq_getElem hi', getD_eq_getElem hj']

/-- The source function computes the Levenshtein distance (of the reversed
strings, which by `lev_reverse` is the same number). -/
theorem levenshteinDistance_eq (s t : String) :
    levenshteinDistance s t = lev s.data.reverse t.data.reverse := by
  have hmain := levTable_eq s.data t.data s.data.length t.data.length
    (le_refl _) (le_refl _)
  rw [List.take_length, List.take_length] at hmain
  unfold levenshteinDistance
  by_cases hst : s = t
  · rw [if_pos hst, hst, lev_self]
  · rw [if_neg hst]
    by_cases h0 : s.length = 0
    · rw [if_pos h0]
      have hd : s.data = [] := by
        have h0' : s.data.length = 0 := h0
        exact List.length_eq_zero.mp h0'
      rw [hd, List.reverse_nil, lev_nil_left, List.length_reverse]
      rfl
    · rw [if_neg h0]
      by_cases h1 : t.length = 0
      · rw [if_pos h1]
        have hd : t.data = [] := by
          have h1' : t.data.length = 0 := h1
          exact List.length_eq_zero.mp h1'
        rw [hd, List.reverse_nil, lev_nil_right, List.length_reverse]
        rfl
      · rw [if_neg h1]
        exact hmain

theorem levenshteinDistance_eq_lev (s t : String) :
    levenshteinDistance s t = lev s.data t.data := by
  rw [levenshteinDistance_eq, lev_reverse]

theorem levenshteinDistance_self (s : String) : levenshteinDistance s s = 0 := by
  unfold levenshteinDistance
  rw [if_pos rfl]

theorem levenshteinDistance_symm (s t : String) :
    levenshteinDistance s t = levenshteinDistance t s := by
  rw [levenshteinDistance_eq_lev, levenshteinDistance_eq_lev, lev_symm]

theorem levenshteinDistance_triangle (s t u : String) :
    levenshteinDistance s u ≤ levenshteinDistance s t + levenshteinDistance t u := by
  rw [levenshteinDistance_eq_lev, levenshteinDistance_eq_lev,
    levenshteinDistance_eq_lev]
  exact lev_triangle s.data t.data u.data

/-- The source distance is achieved by an alignment of the two strings. -/
theorem levenshteinDistance_edits (s t : String) :
    Edits s.data t.data (levenshteinDistance s t) := by
  rw [levenshteinDistance_eq_lev]
  exact edits_lev s.data t.data

/-- The source distance is minimal among all alignment costs. -/
theorem levenshteinDistance_min {s t : String} {n : Nat}
    (h : Edits s.data t.data n) : levenshteinDistance s t ≤ n := by
  rw [levenshteinDistance_eq_lev]
  exact lev_le_of_edits h

theorem levenshteinDistance_eq_zero {s t : String}
    (h : levenshteinDistance s t = 0) : s = t := by
  have h1 := levenshteinDistance_edits s t
  rw [h] at h1
  have h2 := edits_zero_eq h1
  cases s
  cases t
  exact congrArg String.mk h2

theorem levenshteinDistance_length_diff (s t : String) :
    Nat.dist s.length t.length ≤ levenshteinDistance s t := by
  have h := edits_length_diff (levenshteinDistance_edits s t)
  exact h

/- ### Tag Library Index (`createTagLookup`, src/unnamed/part_005 lines 35-132)

The source closes over the module constant `tagDataCsv` imported from
`lib/tagData` (a data file not part of the analysed sources); the embedding
takes the dataset string as an explicit parameter instead. -/

/-- The target language selector `'sc' | 'tc' | 'en'`. -/
inductive Lang
  | en
  | sc
  | tc
deriving DecidableEq, Repr

/-- A JS `Map<string, string>` restricted to the operations the source uses
(`set`, `get`, `has`): `set` prepends and `get` returns the most recent
binding, which models overwrite-on-set exactly. -/
def mapSet (m : List (String × String)) (k v : String) :
    List (String × String) :=
  (k, v) :: m

def mapGet (m : List (String × String)) (k : String) : Option String :=
  (m.find? (fun p => p.1 == k)).map (fun p => p.2)

/-- The mutable pair (`lookupMap`, `validKeys`) built by `createTagLookup`. -/
structure TagIndex where
  lookupMap : List (String × String)
  validKeys : List String
deriving Repr, DecidableEq

/-- The statement pair `lookupMap.set(key, value); validKeys.push(key)` used
by every registration site of `createTagLookup`. -/
def registerKey (acc : TagIndex) (k v : String) : TagIndex :=
  ⟨mapSet acc.lookupMap k v, acc.validKeys ++ [k]⟩

/-- The body of the `lines.forEach(line => ...)` loop of `createTagLookup`
(src/unnamed/part_005 lines 40-90), processing one CSV line. -/
def registerLine (targetLang : Lang) (acc : TagIndex) (line : String) :
    TagIndex :=
  let parts := jsSplit ',' line
  if parts.length < 2 then acc
  else if parts.length == 2 then
    let tag := jsTrim (parts.getD 0 "")
    let definition := jsTrim (parts.getD 1 "")
    if tag ≠ "" then
      let acc1 := registerKey acc (jsToLower tag) tag
      if definition ≠ "" then registerKey acc1 (jsToLower definition) tag
      else acc1
    else acc
  else
    let en := jsTrim (parts.getD 0 "")
    let sc := jsTrim (parts.getD 1 "")
    let tc := jsTrim (parts.getD 2 "")
    let targetValue :=
      match targetLang with
      | Lang.en => en
      | Lang.sc => sc
      | Lang.tc => tc
    if targetValue ≠ "" then
      let acc1 := if en ≠ "" then registerKey acc (jsToLower en) targetValue
        else acc
      let acc2 := if sc ≠ "" then registerKey acc1 sc targetValue else acc1
      if tc ≠ "" then registerKey acc2 tc targetValue else acc2
    else acc

/-- `createTagLookup` index construction (src/unnamed/part_005 lines 35-90):
drop the header line, then run the registration loop. -/
def createTagLookup (tagDataCsv : String) (targetLang : Lang) : TagIndex :=
  ((jsSplit '\n' tagDataCsv).drop 1).foldl (registerLine targetLang) ⟨[], []⟩

/-- The length-dependent fuzzy threshold of the lookup closure
(src/unnamed/part_005 line 109). -/
def maxDistanceFor (normalizedInput : String) : Nat :=
  if normalizedInput.length < 4 then 0
  else if normalizedInput.length < 8 then 2
  else 3

/-- One iteration of the `for (const key of validKeys)` loop
(src/unnamed/part_005 lines 111-121): the accumulator is
(`bestMatch`, `minDistance`), `none` standing for
(`null`, `Infinity`). -/
def fuzzyStep (normalizedInput : String) (maxDistance : Nat)
    (best : Option (String × Nat)) (key : String) : Option (String × Nat) :=
  if maxDistance < Nat.dist key.length normalizedInput.length then best
  else
    let dist := levenshteinDistance normalizedInput key
    match best with
    | none => if dist ≤ maxDistance then some (key, dist) else none
    | some (bk, bd) =>
        if dist ≤ maxDistance ∧ dist < bd then some (key, dist)
        else some (bk, bd)

/-- The lookup closure returned by `createTagLookup`
(src/unnamed/part_005 lines 92-131).  `if (!tagName)` is the JS falsiness
test (empty string), and `if (bestMatch)` at line 123 likewise treats an
empty-string best match as no match. -/
def lookupTag (index : TagIndex) (tagName : String) : Option String :=
  if tagName = "" then none
  else
    let normalizedInput := jsTrim (jsToLower tagName)
    match mapGet index.lookupMap normalizedInput with
    | some v => some v
    | none =>
        let maxDistance := maxDistanceFor normalizedInput
        match index.validKeys.foldl (fuzzyStep normalizedInput maxDistance)
            none with
        | some (bestMatch, _) =>
            if bestMatch = "" then none
            else mapGet index.lookupMap bestMatch
        | none => none

/- ### Tag Normalizer (`normalizeTags`, src/unnamed/part_005 lines 138-159) -/

/-- A model-returned scored tag (`GeneratedTag` in src/unnamed/part_003). -/
structure GeneratedTag where
  name : String
  score : Int
deriving Repr, DecidableEq

/-- The duplicate-removal pass of `normalizeTags`
(src/unnamed/part_005 lines 152-158): `filter` with a growing `seen` set,
keeping the first occurrence of each name. -/
def dedupByName (seen : List String) : List GeneratedTag → List GeneratedTag
  | [] => []
  | t :: ts =>
      if t.name ∈ seen then dedupByName seen ts
      else t :: dedupByName (t.name :: seen) ts

/-- `normalizeTags` (src/unnamed/part_005 lines 138-159): resolve every tag
through the lookup (keeping the score, dropping unresolved tags), then
deduplicate by name. -/
def normalizeTags (tagDataCsv : String) (tags : List GeneratedTag)
    (targetLang : Lang) : List GeneratedTag :=
  let index := createTagLookup tagDataCsv targetLang
  let normalized := tags.filterMap (fun tag =>
    (lookupTag index tag.name).map (fun m => { tag with name := m }))
  dedupByName [] normalized

theorem mapGet_set_self (m : List (String × String)) (k v : String) :
    mapGet (mapSet m k v) k = some v := by
  simp [mapGet, mapSet, List.find?]

theorem mapGet_set_isSome (m : List (String × String)) (k v k2 : String)
    (h : (mapGet m k2).isSome) : (mapGet (mapSet m k v) k2).isSome := by
  simp only [mapGet, mapSet, List.find?]
  by_cases hk : k == k2
  · simp [hk]
  · simp only [hk]
    simpa [mapGet] using h

theorem jsToLower_ne_empty {s : String} (h : s ≠ "") : jsToLower s ≠ "" := by
  intro hc
  apply h
  cases s with
  | mk l =>
      cases l with
      | nil => rfl
      | cons c cs =>
          have hdata := congrArg String.data hc
          simp [jsToLower] at hdata

/-- Invariant of the index construction: every pushed key is bound in the
map, and no pushed key is the empty string. -/
def IndexInv (acc : TagIndex) : Prop :=
  ∀ k ∈ acc.validKeys, (mapGet acc.lookupMap k).isSome ∧ k ≠ ""

theorem indexInv_registerKey {acc : TagIndex} {k v : String}
    (hinv : IndexInv acc) (hk : k ≠ "") : IndexInv (registerKey acc k v) := by
  intro k2 hk2
  simp only [registerKey, List.mem_append, List.mem_singleton] at hk2
  rcases hk2 with hk2 | hk2
  · obtain ⟨h1, h2⟩ := hinv k2 hk2
    exact ⟨mapGet_set_isSome _ _ _ _ h1, h2⟩
  · subst hk2
    constructor
    · simp [registerKey, mapGet_set_self]
    · exact hk

theorem indexInv_registerLine (lang : Lang) (line : String) {acc : TagIndex}
    (hinv : IndexInv acc) : IndexInv (registerLine lang acc line) := by
  unfold registerLine
  dsimp only
  split_ifs with h1 h2 h3 h4 h5 h6 h7 h8 <;> try exact hinv
  all_goals
    repeat
      first
        | exact hinv
        | exact jsToLower_ne_empty (by assumption)
        | assumption
        | apply indexInv_registerKey

theorem indexInv_foldl (lang : Lang) (lines : List String) :
    ∀ acc : TagIndex, IndexInv acc →
      IndexInv (lines.foldl (registerLine lang) acc) := by
  induction lines with
  | nil => intro acc h; exact h
  | cons l ls ih =>
      intro acc h
      exact ih _ (indexInv_registerLine lang l h)

theorem indexInv_createTagLookup (csv : String) (lang : Lang) :
    IndexInv (createTagLookup csv lang) := by
  unfold createTagLookup
  apply indexInv_foldl
  intro k hk
  simp at hk

/-- Skip-free restatement of one fuzzy iteration: by
`levenshteinDistance_length_diff`, a key skipped by the length-difference
pruning can never pass the threshold test, so the pruned loop body equals
this unpruned one. -/
def fuzzyStepSpec (normalizedInput : String) (maxDistance : Nat)
    (best : Option (String × Nat)) (key : String) : Option (String × Nat) :=
  match best with
  | none =>
      if levenshteinDistance normalizedInput key ≤ maxDistance then
        some (key, levenshteinDistance normalizedInput key)
      else none
  | some (bk, bd) =>
      if levenshteinDistance normalizedInput key ≤ maxDistance ∧
          levenshteinDistance normalizedInput key < bd then
        some (key, levenshteinDistance normalizedInput key)
      else some (bk, bd)

theorem fuzzyStep_eq_spec (n : String) (maxD : Nat)
    (best : Option (String × Nat)) (key : String) :
    fuzzyStep n maxD best key = fuzzyStepSpec n maxD best key := by
  by_cases hskip : maxD < Nat.dist key.length n.length
  · have hgt : maxD < levenshteinDistance n key := by
      have h := levenshteinDistance_length_diff n key
      have h2 : Nat.dist key.length n.length = Nat.dist n.length key.length :=
        Nat.dist_comm _ _
      omega
    have hnotle : ¬ levenshteinDistance n key ≤ maxD := by omega
    cases best with
    | none =>
        simp only [fuzzyStep, fuzzyStepSpec, if_pos hskip]
        rw [if_neg hnotle]
    | some p =>
        obtain ⟨bk, bd⟩ := p
        simp only [fuzzyStep, fuzzyStepSpec, if_pos hskip]
        rw [if_neg (fun hc => hnotle hc.1)]
  · unfold fuzzyStep fuzzyStepSpec
    rw [if_neg hskip]

/-- Full behaviour of the `for (const key of validKeys)` loop: either no key
is within the threshold and the result is `none`, or the result is the
within-threshold key of smallest distance, ties broken by the earliest
position in `ks`. -/
theorem fuzzyFold_spec (n : String) (maxD : Nat) (ks : List String) :
    (ks.foldl (fuzzyStep n maxD) none = none ∧
      ∀ k ∈ ks, maxD < levenshteinDistance n k) ∨
    (∃ key d, ks.foldl (fuzzyStep n maxD) none = some (key, d) ∧
      d = levenshteinDistance n key ∧ d ≤ maxD ∧
      (∃ pre post, ks = pre ++ key :: post ∧
        ∀ k ∈ pre, levenshteinDistance n k ≤ maxD →
          d < levenshteinDistance n k) ∧
      (∀ k ∈ ks, levenshteinDistance n k ≤ maxD →
        d ≤ levenshteinDistance n k)) := by
  induction ks using List.reverseRecOn with
  | nil =>
      left
      constructor
      · rfl
      · intro k hk
        simp at hk
  | append_singleton ks k ih =>
      rw [List.foldl_append, List.foldl_cons, List.foldl_nil,
        fuzzyStep_eq_spec]
      rcases ih with ⟨hnone, hall⟩ | ⟨key, d, hsome, hd, hdle, ⟨pre, post, hks, hpre⟩, hglob⟩
      · rw [hnone]
        simp only [fuzzyStepSpec]
        by_cases h : levenshteinDistance n k ≤ maxD
        · right
          refine ⟨k, levenshteinDistance n k, by rw [if_pos h], rfl, h,
            ⟨ks, [], rfl, ?hp⟩, ?hg⟩
          · intro j hj hjle
            exact absurd hjle (by have := hall j hj; omega)
          · intro j hj hjle
            rcases List.mem_append.mp hj with hj | hj
            · exact absurd hjle (by have := hall j hj; omega)
            · rw [List.mem_singleton.mp hj]
        · left
          constructor
          · rw [if_neg h]
          · intro j hj
            rcases List.mem_append.mp hj with hj | hj
            · exact hall j hj
            · rw [List.mem_singleton.mp hj]; omega
      · rw [hsome]
        simp only [fuzzyStepSpec]
        by_cases h : levenshteinDistance n k ≤ maxD ∧
            levenshteinDistance n k < d
        · right
          refine ⟨k, levenshteinDistance n k, by rw [if_pos h], rfl, h.1,
            ⟨ks, [], rfl, ?hp2⟩, ?hg2⟩
          · intro j hj hjle
            have := hglob j hj hjle
            omega
          · intro j hj hjle
            rcases List.mem_append.mp hj with hj | hj
            · have := hglob j hj hjle
              omega
            · rw [List.mem_singleton.mp hj]
        · right
          refine ⟨key, d, by rw [if_neg h], hd, hdle,
            ⟨pre, post ++ [k], by rw [hks]; simp, hpre⟩, ?hg3⟩
          intro j hj hjle
          rcases List.mem_append.mp hj with hj | hj
          · exact hglob j hj hjle
          · rw [List.mem_singleton.mp hj] at hjle ⊢
            omega

/-- Claim C2: for every candidate string, the lookup returned by
`createTagLookup` first tries an exact match of the lower-cased trimmed
candidate against the registered keys; otherwise it fuzzy-matches with the
length-dependent threshold (0 below length 4, 2 below length 8, else 3),
resolving through the registered key with the smallest distance within the
threshold (ties broken by first registration), and returns not-found when no
key is within the threshold; in particular a candidate of normalized length
< 4 that is not registered verbatim resolves to not-found. -/
theorem claim2_lookup_resolution (csv : String) (lang : Lang) (cand n : String)
    (hn : n = jsTrim (jsToLower cand)) (hcand : cand ≠ "") :
    (maxDistanceFor n =
      (if n.length < 4 then 0 else if n.length < 8 then 2 else 3))
    ∧ (∀ v, mapGet (createTagLookup csv lang).lookupMap n = some v →
        lookupTag (createTagLookup csv lang) cand = some v)
    ∧ (mapGet (createTagLookup csv lang).lookupMap n = none →
        ((∀ k ∈ (createTagLookup csv lang).validKeys,
            maxDistanceFor n < levenshteinDistance n k) →
          lookupTag (createTagLookup csv lang) cand = none)
        ∧ (∀ k₀ ∈ (createTagLookup csv lang).validKeys,
            levenshteinDistance n k₀ ≤ maxDistanceFor n →
            ∃ key pre post,
              (createTagLookup csv lang).validKeys = pre ++ key :: post ∧
              levenshteinDistance n key ≤ maxDistanceFor n ∧
              (∀ k ∈ (createTagLookup csv lang).validKeys,
                levenshteinDistance n k ≤ maxDistanceFor n →
                levenshteinDistance n key ≤ levenshteinDistance n k) ∧
              (∀ k ∈ pre, levenshteinDistance n k ≤ maxDistanceFor n →
                levenshteinDistance n key < levenshteinDistance n k) ∧
              lookupTag (createTagLookup csv lang) cand =
                mapGet (createTagLookup csv lang).lookupMap key))
    ∧ (n.length < 4 → mapGet (createTagLookup csv lang).lookupMap n = none →
        lookupTag (createTagLookup csv lang) cand = none) := by
  have hlookup : lookupTag (createTagLookup csv lang) cand =
      (match mapGet (createTagLookup csv lang).lookupMap n with
      | some v => some v
      | none =>
          match (createTagLookup csv lang).validKeys.foldl
              (fuzzyStep n (maxDistanceFor n)) none with
          | some (bestMatch, _) =>
              if bestMatch = "" then none
              else mapGet (createTagLookup csv lang).lookupMap bestMatch
          | none => none) := by
    unfold lookupTag
    rw [if_neg hcand, ← hn]
  refine ⟨rfl, ?exact, ?fuzzy, ?short⟩
  · intro v hv
    rw [hlookup, hv]
  · intro hmiss
    rcases fuzzyFold_spec n (maxDistanceFor n)
        (createTagLookup csv lang).validKeys with
      ⟨hfold, hall⟩ | ⟨key, d, hfold, hd, hdle, ⟨pre, post, hks, hpre⟩, hglob⟩
    · constructor
      · intro _
        rw [hlookup, hmiss, hfold]
      · intro k₀ hk₀ hk₀le
        exact absurd hk₀le (by have := hall k₀ hk₀; omega)
    · have hkeymem : key ∈ (createTagLookup csv lang).validKeys := by
        rw [hks]
        exact List.mem_append.mpr (Or.inr (List.mem_cons_self _ _))
      have hkeyne : key ≠ "" :=
        (indexInv_createTagLookup csv lang key hkeymem).2
      constructor
      · intro hout
        exact absurd hdle (by have := hout key hkeymem; omega)
      · intro k₀ hk₀ hk₀le
        refine ⟨key, pre, post, hks, by omega, ?gmin, ?pmin, ?res⟩
        · intro k hk hkle
          have := hglob k hk hkle
          omega
        · intro k hk hkle
          have := hpre k hk hkle
          omega
        · rw [hlookup, hmiss, hfold]
          dsimp only
          rw [if_neg hkeyne]
  · intro hshort hmiss
    rcases fuzzyFold_spec n (maxDistanceFor n)
        (createTagLookup csv lang).validKeys with
      ⟨hfold, _⟩ | ⟨key, d, hfold, hd, hdle, ⟨pre, post, hks, _⟩, _⟩
    · rw [hlookup, hmiss, hfold]
    · exfalso
      have hmax0 : maxDistanceFor n = 0 := by
        unfold maxDistanceFor
        rw [if_pos hshort]
      have hd0 : levenshteinDistance n key = 0 := by omega
      have hkeyn : n = key := levenshteinDistance_eq_zero hd0
      have hkeymem : key ∈ (createTagLookup csv lang).validKeys := by
        rw [hks]
        exact List.mem_append.mpr (Or.inr (List.mem_cons_self _ _))
      have hsome := (indexInv_createTagLookup csv lang key hkeymem).1
      rw [← hkeyn, hmiss] at hsome
      simp at hsome

/-- Witness for C2 at a concrete dataset and candidate: the exact-match
conjunct applied to the five-column row `action,Z,Y,n,d` with target language
`tc` and candidate `Action`. -/
theorem claim2_lookup_resolution_witness :
    lookupTag (createTagLookup "h\naction,Z,Y,n,d" Lang.tc) "Action" =
      some "Y" :=
  (claim2_lookup_resolution "h\naction,Z,Y,n,d" Lang.tc "Action" "action"
    (by decide) (by decide)).2.1 "Y" (by decide)

theorem mapGet_set_stable (m : List (String × String)) (k k2 v : String)
    (h : mapGet m k = some v) : mapGet (mapSet m k2 v) k = some v := by
  by_cases hk : k2 = k
  · subst hk
    exact mapGet_set_self m k2 v
  · simp only [mapGet, mapSet, List.find?]
    have hbeq : (k2 == k) = false := by
      simp [hk]
    rw [hbeq]
    exact h

/-- Counterexample to claim C3 on the dataset
`"h\nA,ABC,,,\nx,y\nB,DEF,,,d"` with target language `en`.  The claim
predicts: format detected once from the first data line (5 columns, so
multilingual), keys registered only for rows with a non-empty description,
and every variant registered lower-cased.  Under that reading `x` and `a`
resolve to not-found (the `x,y` row is a multilingual row without a
description, and row `A,ABC,,,` has no description) while `DEF` resolves to
`B` (row `B,DEF,,,d` has description `d`, and its `sc` variant would be
registered lower-cased as `def`).  The code instead treats `x,y` as a simple
row (per-line format detection), registers row `A,ABC,,,` although its
description is empty, and registers the `sc` variant `DEF` verbatim, so that
the lower-cased candidate misses it. -/
theorem claim3_counterexample :
    lookupTag (createTagLookup "h\nA,ABC,,,\nx,y\nB,DEF,,,d" Lang.en) "x" =
      some "x"
    ∧ lookupTag (createTagLookup "h\nA,ABC,,,\nx,y\nB,DEF,,,d" Lang.en) "a" =
      some "A"
    ∧ lookupTag (createTagLookup "h\nA,ABC,,,\nx,y\nB,DEF,,,d" Lang.en)
        "DEF" = none := by
  refine ⟨by decide, by decide, ?_⟩
  have h1 : levenshteinDistance "def" "ABC" = 3 := by
    simp [levenshteinDistance, levTable]
    rfl
  have h2 : levenshteinDistance "def" "DEF" = 3 := by
    simp [levenshteinDistance, levTable]
    rfl
  have l1 : ("def" : String).length = 3 := rfl
  have l2 : ("ABC" : String).length = 3 := rfl
  have l3 : ("DEF" : String).length = 3 := rfl
  have l4 : ("a" : String).length = 1 := rfl
  have l5 : ("x" : String).length = 1 := rfl
  have l6 : ("y" : String).length = 1 := rfl
  have l7 : ("b" : String).length = 1 := rfl
  simp [lookupTag, createTagLookup, registerLine, registerKey, jsSplit,
    splitOnCharAux, jsTrim, jsToLower, isJsWhitespace, mapGet, mapSet,
    maxDistanceFor, fuzzyStep, h1, h2, l1, l2, l3, l4, l5, l6, l7, Nat.dist]

/-- Claim C3, amended to what the code does: the format is decided per line
from that line's own column count (fewer than 2 columns: skipped; exactly 2:
simple row; more: multilingual row).  A multilingual row registers keys
whenever its target-language value is non-empty, with no description check:
the `en` variant is registered lower-cased while the `sc` and `tc` variants
are registered verbatim, each mapping to the row's target-language value;
rows lacking a target-language value register nothing. -/
theorem claim3_amended_per_line_registration (lang : Lang) (acc : TagIndex)
    (line : String) (parts : List String) (hparts : parts = jsSplit ',' line)
    (en sc tc tv : String)
    (hen : en = jsTrim (parts.getD 0 ""))
    (hsc : sc = jsTrim (parts.getD 1 ""))
    (htc : tc = jsTrim (parts.getD 2 ""))
    (htv : tv = (match lang with
      | Lang.en => en
      | Lang.sc => sc
      | Lang.tc => tc)) :
    (parts.length < 2 → registerLine lang acc line = acc)
    ∧ (2 ≤ parts.length → parts.length ≠ 2 → tv = "" →
        registerLine lang acc line = acc)
    ∧ (2 ≤ parts.length → parts.length ≠ 2 → tv ≠ "" →
        (registerLine lang acc line).validKeys =
          acc.validKeys ++ (if en ≠ "" then [jsToLower en] else [])
            ++ (if sc ≠ "" then [sc] else [])
            ++ (if tc ≠ "" then [tc] else [])
        ∧ (en ≠ "" → mapGet (registerLine lang acc line).lookupMap
            (jsToLower en) = some tv)
        ∧ (sc ≠ "" → mapGet (registerLine lang acc line).lookupMap sc =
            some tv)
        ∧ (tc ≠ "" → mapGet (registerLine lang acc line).lookupMap tc =
            some tv)) := by
  subst hparts hen hsc htc htv
  unfold registerLine
  dsimp only
  refine ⟨?skip1, ?skip2, ?reg⟩
  · intro h
    rw [if_pos h]
  · intro h2 hne h0
    rw [if_neg (by omega), if_neg (by simpa using hne), if_neg (by simpa using h0)]
  · intro h2 hne htvne
    rw [if_neg (by omega), if_neg (by simpa using hne), if_pos htvne]
    split_ifs with he hs ht <;>
      refine ⟨by simp [registerKey, List.append_assoc], ?_, ?_, ?_⟩ <;>
        intro hx <;>
        first
          | exact absurd hx (by assumption)
          | (simp only [registerKey]
             repeat
               first
                 | exact mapGet_set_self _ _ _
                 | apply mapGet_set_stable)

/-- Witness for the amended C3 at a concrete multilingual row without a
description: `A,B,C,,` with target language `en` registers `a` (lower-cased
`en` variant), `B` and `C` (verbatim), all mapping to `A`. -/
theorem claim3_amended_witness :
    (registerLine Lang.en ⟨[], []⟩ "A,B,C,,").validKeys = ["a", "B", "C"]
    ∧ mapGet (registerLine Lang.en ⟨[], []⟩ "A,B,C,,").lookupMap "B" =
      some "A" := by
  have h := (claim3_amended_per_line_registration Lang.en ⟨[], []⟩ "A,B,C,,"
    (jsSplit ',' "A,B,C,,") rfl "A" "B" "C" "A" (by decide) (by decide)
    (by decide) rfl).2.2 (by decide) (by decide) (by decide)
  exact ⟨by simpa using h.1, h.2.2.1 (by decide)⟩

theorem dedupByName_sublist (seen : List String) (l : List GeneratedTag) :
    (dedupByName seen l).Sublist l := by
  induction l generalizing seen with
  | nil => simp [dedupByName]
  | cons t ts ih =>
      unfold dedupByName
      by_cases h : t.name ∈ seen
      · rw [if_pos h]
        exact (ih seen).cons t
      · rw [if_neg h]
        exact (ih (t.name :: seen)).cons₂ t

theorem dedupByName_names (seen : List String) (l : List GeneratedTag) :
    (∀ nm ∈ seen, nm ∉ (dedupByName seen l).map GeneratedTag.name)
    ∧ ((dedupByName seen l).map GeneratedTag.name).Nodup := by
  induction l generalizing seen with
  | nil => simp [dedupByName]
  | cons t ts ih =>
      unfold dedupByName
      by_cases h : t.name ∈ seen
      · rw [if_pos h]
        exact ih seen
      · rw [if_neg h]
        obtain ⟨ihdisj, ihnodup⟩ := ih (t.name :: seen)
        constructor
        · intro nm hnm
          simp only [List.map_cons, List.mem_cons, not_or]
          constructor
          · intro hc
            exact h (hc ▸ hnm)
          · exact ihdisj nm (List.mem_cons_of_mem _ hnm)
        · simp only [List.map_cons, List.nodup_cons]
          exact ⟨ihdisj t.name (List.mem_cons_self _ _), ihnodup⟩

theorem dedupByName_find? (seen : List String) (l : List GeneratedTag)
    (nm : String) (hnm : nm ∉ seen) :
    (dedupByName seen l).find? (fun t => t.name == nm) =
      l.find? (fun t => t.name == nm) := by
  induction l generalizing seen with
  | nil => simp [dedupByName]
  | cons t ts ih =>
      unfold dedupByName
      by_cases h : t.name ∈ seen
      · rw [if_pos h]
        have hne : (t.name == nm) = false := by
          simp only [beq_eq_false_iff_ne, ne_eq]
          intro hc
          exact hnm (hc ▸ h)
        rw [List.find?_cons, hne]
        exact ih seen hnm
      · rw [if_neg h]
        rw [List.find?_cons, List.find?_cons]
        by_cases heq : (t.name == nm) = true
        · rw [heq]
        · rw [Bool.not_eq_true] at heq
          rw [heq]
          apply ih
          simp only [List.mem_cons, not_or]
          exact ⟨fun hc => (by simp [beq_eq_false_iff_ne] at heq; exact heq hc.symm), hnm⟩

theorem dedupByName_name_mem (seen : List String) (l : List GeneratedTag)
    (nm : String) (hnm : nm ∉ seen) (hmem : nm ∈ l.map GeneratedTag.name) :
    nm ∈ (dedupByName seen l).map GeneratedTag.name := by
  induction l generalizing seen with
  | nil => simp at hmem
  | cons t ts ih =>
      unfold dedupByName
      by_cases h : t.name ∈ seen
      · rw [if_pos h]
        apply ih seen hnm
        simp only [List.map_cons, List.mem_cons] at hmem
        rcases hmem with hmem | hmem
        · exact absurd (hmem ▸ h) hnm
        · exact hmem
      · rw [if_neg h]
        simp only [List.map_cons, List.mem_cons] at hmem ⊢
        rcases hmem with hmem | hmem
        · exact Or.inl hmem
        · by_cases hcase : nm = t.name
          · exact Or.inl hcase
          · refine Or.inr (ih (t.name :: seen) ?_ hmem)
            simp only [List.mem_cons, not_or]
            exact ⟨hcase, hnm⟩

theorem length_filterMap_le' {α β : Type} (f : α → Option β) (l : List α) :
    (l.filterMap f).length ≤ l.length := by
  induction l with
  | nil => simp
  | cons a as ih =>
      rw [List.filterMap_cons]
      cases f a with
      | none => exact Nat.le_succ_of_le ih
      | some b => simpa using ih

/-- Claim C4: `normalizeTags` replaces each resolvable tag name with its
canonical target-language form preserving the score, drops unresolvable
tags, and deduplicates by canonical name keeping the first occurrence in the
original relative order; hence the output is no longer than the input and no
two output entries share a name. -/
theorem claim4_normalizeTags (csv : String) (tags : List GeneratedTag)
    (lang : Lang) :
    (∀ o ∈ normalizeTags csv tags lang,
      ∃ t ∈ tags, lookupTag (createTagLookup csv lang) t.name = some o.name ∧
        o.score = t.score)
    ∧ (∀ t ∈ tags, ∀ v, lookupTag (createTagLookup csv lang) t.name = some v →
        v ∈ (normalizeTags csv tags lang).map GeneratedTag.name)
    ∧ ((normalizeTags csv tags lang).map GeneratedTag.name).Nodup
    ∧ (normalizeTags csv tags lang).length ≤ tags.length
    ∧ (normalizeTags csv tags lang).Sublist
        (tags.filterMap (fun t =>
          (lookupTag (createTagLookup csv lang) t.name).map
            (fun v => { t with name := v })))
    ∧ (∀ nm, (normalizeTags csv tags lang).find? (fun t => t.name == nm) =
        (tags.filterMap (fun t =>
          (lookupTag (createTagLookup csv lang) t.name).map
            (fun v => { t with name := v }))).find? (fun t => t.name == nm)) := by
  have hout : normalizeTags csv tags lang =
      dedupByName [] (tags.filterMap (fun t =>
        (lookupTag (createTagLookup csv lang) t.name).map
          (fun v => { t with name := v }))) := rfl
  refine ⟨?origin, ?cover, ?nodup, ?len, ?subl, ?find⟩
  · intro o ho
    rw [hout] at ho
    have hmem := (dedupByName_sublist _ _).mem ho
    obtain ⟨t, ht, hft⟩ := List.mem_filterMap.mp hmem
    obtain ⟨v, hv, heq⟩ := Option.map_eq_some'.mp hft
    subst heq
    exact ⟨t, ht, hv, rfl⟩
  · intro t ht v hv
    rw [hout]
    apply dedupByName_name_mem _ _ _ (by simp)
    have hmem : ({ t with name := v } : GeneratedTag) ∈
        tags.filterMap (fun t =>
          (lookupTag (createTagLookup csv lang) t.name).map
            (fun v => { t with name := v })) := by
      apply List.mem_filterMap.mpr
      exact ⟨t, ht, by rw [hv]; rfl⟩
    have : v = ({ t with name := v } : GeneratedTag).name := rfl
    rw [this]
    exact List.mem_map_of_mem _ hmem
  · rw [hout]
    exact (dedupByName_names [] _).2
  · rw [hout]
    calc (dedupByName [] _).length ≤ _ := (dedupByName_sublist _ _).length_le
      _ ≤ tags.length := length_filterMap_le' _ _
  · rw [hout]
    exact dedupByName_sublist _ _
  · intro nm
    rw [hout]
    exact dedupByName_find? _ _ nm (by simp)

/-- Witness for C4: on the dataset row `action,Z,Y,n,d` (language `tc`) and
the input `[(Action, 90), (action, 80)]`, both names resolve to `Y`; the
first-occurrence conjunct applied at name `Y` pins the surviving entry to
`(Y, 90)`. -/
theorem claim4_normalizeTags_witness :
    (normalizeTags "h\naction,Z,Y,n,d"
      [⟨"Action", 90⟩, ⟨"action", 80⟩] Lang.tc).find?
        (fun t => t.name == "Y") = some ⟨"Y", 90⟩ := by
  have h := (claim4_normalizeTags "h\naction,Z,Y,n,d"
    [⟨"Action", 90⟩, ⟨"action", 80⟩] Lang.tc).2.2.2.2.2 "Y"
  rw [h]
  decide

/- ### Retry Policy (`withRetry`, src/utils/retry.ts lines 2-40) -/

/-- Model of `String.prototype.includes`. -/
def jsIncludes (s pat : String) : Bool :=
  s.data.tails.any (fun suffix => pat.data.isPrefixOf suffix)

/-- `isAuthError` classification (src/utils/retry.ts line 19). -/
def isAuthError (msg : String) : Bool :=
  jsIncludes msg "API key" || jsIncludes msg "401" || jsIncludes msg "403"

/-- `isBadRequest` classification (src/utils/retry.ts line 20). -/
def isBadRequest (msg : String) : Bool :=
  jsIncludes msg "400" && ! jsIncludes msg "safety"

/-- Observable outcome of a `withRetry` run: the settled result, how many
times `fn` was invoked, and the backoff delays awaited (in order). -/
structure RetryTrace (α : Type) where
  result : Except JsErr α
  attemptsMade : Nat
  delays : List Nat
deriving Repr

/-- The `for (let attempt = 0; attempt <= retries; attempt++)` loop of
`withRetry`, from iteration `attempt` on.  The operation is modelled as a
function from the attempt index to that attempt's outcome.  The loop
invariant gives `attempt ≤ retries`, so the source's `attempt === retries`
break test is written `retries ≤ attempt` (equivalent on all reachable
states, and well-founded for all arguments). -/
def withRetryGo {α : Type} (fn : Nat → Except JsErr α)
    (retries baseDelay backoffFactor attempt : Nat) : RetryTrace α :=
  match fn attempt with
  | Except.ok v => ⟨Except.ok v, 1, []⟩
  | Except.error e =>
      if isAuthError e.message || isBadRequest e.message then
        ⟨Except.error e, 1, []⟩
      else if retries ≤ attempt then ⟨Except.error e, 1, []⟩
      else
        let rest := withRetryGo fn retries baseDelay backoffFactor (attempt + 1)
        ⟨rest.result, rest.attemptsMade + 1,
          baseDelay * backoffFactor ^ attempt :: rest.delays⟩
termination_by retries - attempt

/-- `withRetry(fn, retries, baseDelay, backoffFactor)`
(source defaults: `retries = 3`, `baseDelay = 1000`, `backoffFactor = 2`). -/
def withRetry {α : Type} (fn : Nat → Except JsErr α)
    (retries baseDelay backoffFactor : Nat) : RetryTrace α :=
  withRetryGo fn retries baseDelay backoffFactor 0

theorem withRetryGo_allFail {α : Type} (fn : Nat → Except JsErr α)
    (e : Nat → JsErr) (retries b f : Nat)
    (hf : ∀ i, fn i = Except.error (e i))
    (ha : ∀ i, isAuthError (e i).message = false)
    (hb : ∀ i, isBadRequest (e i).message = false) :
    ∀ d a, retries - a = d → a ≤ retries →
      withRetryGo fn retries b f a =
        ⟨Except.error (e retries), retries - a + 1,
          (List.range' a (retries - a)).map (fun i => b * f ^ i)⟩ := by
  intro d
  induction d with
  | zero =>
      intro a hd hle
      have haeq : a = retries := by omega
      subst haeq
      rw [withRetryGo, hf a]
      simp only [ha a, hb a, Bool.or_self, Bool.false_eq_true, if_false,
        le_refl, if_true]
      rw [Nat.sub_self]
      rfl
  | succ d ih =>
      intro a hd hle
      have hlt : a < retries := by omega
      rw [withRetryGo, hf a]
      simp only [ha a, hb a, Bool.or_self, Bool.false_eq_true, if_false,
        Nat.not_le.mpr hlt, if_false]
      rw [ih (a + 1) (by omega) (by omega)]
      have h1 : retries - a = (retries - (a + 1)) + 1 := by omega
      rw [h1, List.range'_succ]
      rfl

/-- An operation whose every attempt throws the cancellation outcome
(`signal` already aborted, as in `performGeneration`,
src/services/geminiProvider.ts lines 74-77). -/
def fnAbortAll : Nat → Except JsErr Unit := fun _ => Except.error abortErr

/-- Claim C1 evaluated on the code: `withRetry` has no cancellation check, so
with the default budget an operation that fails with `AbortError` on every
attempt is invoked 4 times with backoff waits of 1000, 2000 and 4000 ms
before the `AbortError` itself is surfaced — cancellation is retried and
delayed (contradicting the claim's "no further attempt and no backoff
delay"), although the finally-surfaced outcome is still the `AbortError`
(supporting "never converted into a retry-exhausted error"). -/
theorem claim1_cancellation_is_retried :
    withRetry fnAbortAll 3 1000 2 =
      ⟨Except.error abortErr, 4, [1000, 2000, 4000]⟩ := by
  have h := withRetryGo_allFail fnAbortAll (fun _ => abortErr) 3 1000 2
    (fun _ => rfl)
    (fun _ => (by decide : isAuthError abortErr.message = false))
    (fun _ => (by decide : isBadRequest abortErr.message = false)) 3 0 rfl
    (by omega)
  unfold withRetry
  rw [h]
  rfl

/-- Claim C6: `withRetry` never retries an operation whose failure is
classified as an authentication failure (the error is surfaced after the
first failing attempt, with no delay), whereas an operation failing every
attempt with a rate-limit error (a `429` message, which the classifier
treats as retryable) is reattempted up to the attempt budget — `retries + 1`
total invocations, 4 with the default `retries = 3` — with a wait of
`baseDelay * backoffFactor ^ attemptIndex` before each reattempt, after
which the last error is surfaced. -/
theorem claim6_retry_classification :
    (∀ (α : Type) (fn : Nat → Except JsErr α) (e : JsErr) (retries b f : Nat),
      fn 0 = Except.error e → isAuthError e.message = true →
      withRetry fn retries b f = ⟨Except.error e, 1, []⟩)
    ∧ (∀ (α : Type) (fn : Nat → Except JsErr α) (e : Nat → JsErr)
        (retries b f : Nat),
      (∀ i, fn i = Except.error (e i)) →
      (∀ i, jsIncludes (e i).message "429" = true) →
      (∀ i, isAuthError (e i).message = false) →
      (∀ i, isBadRequest (e i).message = false) →
      withRetry fn retries b f =
        ⟨Except.error (e retries), retries + 1,
          (List.range' 0 retries).map (fun i => b * f ^ i)⟩) := by
  constructor
  · intro α fn e retries b f h0 hauth
    unfold withRetry
    rw [withRetryGo, h0]
    simp only [hauth, Bool.true_or, if_true]
  · intro α fn e retries b f hf _ ha hb
    have h := withRetryGo_allFail fn e retries b f hf ha hb (retries - 0) 0
      rfl (by omega)
    unfold withRetry
    rw [h]
    simp

/-- Always-authentication-failing operation for the C6 witness. -/
def fnAuthAll : Nat → Except JsErr Unit :=
  fun _ => Except.error ⟨"Error", "401 unauthorized"⟩

/-- Always-rate-limited operation for the C6 witness. -/
def fnRateAll : Nat → Except JsErr Unit :=
  fun _ => Except.error ⟨"Error", "Rate limit exceeded (429): slow down"⟩

/-- Witness for C6 at the source defaults: an auth failure is surfaced after
1 attempt with no delay; an always-429 operation is attempted 4 times with
waits 1000, 2000, 4000 ms and the last error surfaced. -/
theorem claim6_retry_classification_witness :
    withRetry fnAuthAll 3 1000 2 =
      ⟨Except.error ⟨"Error", "401 unauthorized"⟩, 1, []⟩
    ∧ withRetry fnRateAll 3 1000 2 =
      ⟨Except.error ⟨"Error", "Rate limit exceeded (429): slow down"⟩, 4,
        [1000, 2000, 4000]⟩ := by
  constructor
  · exact claim6_retry_classification.1 Unit fnAuthAll
      ⟨"Error", "401 unauthorized"⟩ 3 1000 2 rfl (by decide)
  · have h := claim6_retry_classification.2 Unit fnRateAll
      (fun _ => ⟨"Error", "Rate limit exceeded (429): slow down"⟩) 3 1000 2
      (fun _ => rfl)
      (fun _ => (by decide :
        jsIncludes "Rate limit exceeded (429): slow down" "429" = true))
      (fun _ => (by decide :
        isAuthError "Rate limit exceeded (429): slow down" = false))
      (fun _ => (by decide :
        isBadRequest "Rate limit exceeded (429): slow down" = false))
    rw [h]
    rfl

/-- Claim C10: the Matcher's `distance` returns a (non-negative, being a
`Nat`) integer equal to the minimum number of single-character insertions,
deletions and substitutions transforming `a` into `b` (stated as: some
alignment achieves it, and it bounds every alignment cost); it is symmetric,
zero on equal strings, and satisfies the triangle inequality. -/
theorem claim10_matcher_metric :
    (∀ a b : String, Edits a.data b.data (levenshteinDistance a b) ∧
      ∀ n, Edits a.data b.data n → levenshteinDistance a b ≤ n)
    ∧ (∀ a b : String, levenshteinDistance a b = levenshteinDistance b a)
    ∧ (∀ a : String, levenshteinDistance a a = 0)
    ∧ (∀ a b c : String, levenshteinDistance a c ≤
        levenshteinDistance a b + levenshteinDistance b c) := by
  refine ⟨?min, ?symm, ?self, ?tri⟩
  · intro a b
    exact ⟨levenshteinDistance_edits a b, fun n h => levenshteinDistance_min h⟩
  · intro a b
    exact levenshteinDistance_symm a b
  · intro a
    exact levenshteinDistance_self a
  · intro a b c
    exact levenshteinDistance_triangle a b c

/-- Witness for C10: the minimality half applied to the concrete alignment
deleting `a` from `ab`, giving `distance("ab", "b") ≤ 1`. -/
theorem claim10_matcher_metric_witness :
    levenshteinDistance "ab" "b" ≤ 1 :=
  (claim10_matcher_metric.1 "ab" "b").2 1
    (Edits.delete 'a' (Edits.keep 'b' Edits.nil))

/- ### Orchestrator (`generateTags` in llmService, src/unnamed/part_002
lines 120-177)

The model abstracts the two provider calls as their outcomes: `primary` is
the active provider's `generateTags` outcome, `backup` the outcome of
constructing and invoking the failover provider (a synchronous throw from
`createProvider` and a rejection of the backup call land in the same
`catch (failoverErr)` and are indistinguishable downstream).  The second
component of the result counts how many times the failover path was
invoked. -/

/-- `GenerationResponse` (src/unnamed/part_003): the result plus
`usedFailover` and the serving provider's name. -/
structure GenerationResponse (R : Type) where
  result : R
  usedFailover : Bool
  providerName : String
deriving Repr

/-- The combined error text of src/unnamed/part_002 line 168. -/
def combinedFailureMessage (primaryName : String) (err : JsErr)
    (failoverName : String) (failoverErr : JsErr) : String :=
  "主要服務 (" ++ primaryName ++ ") 失敗: " ++ err.message ++
    ". \n備援服務 (" ++ failoverName ++ ") 也失敗: " ++ failoverErr.message

/-- The network-error remediation text of src/unnamed/part_002 line 173. -/
def connectFailureMessage : String :=
  "無法連接到 AI 服務。請檢查伺服器是否運行中，網址是否正確，以及 CORS 設定。"

/-- `generateTags` of the llmService orchestrator (src/unnamed/part_002
lines 120-177). -/
def generateTags {R : Type} (primary backup : Except JsErr R)
    (enableFailover : Bool) (failoverProvider : Option String)
    (primaryName : String) : Except JsErr (GenerationResponse R) × Nat :=
  match primary with
  | Except.ok r => (Except.ok ⟨r, false, primaryName⟩, 0)
  | Except.error err =>
      if err.name = "AbortError" then (Except.error err, 0)
      else
        match enableFailover, failoverProvider with
        | true, some fp =>
            match backup with
            | Except.ok r => (Except.ok ⟨r, true, fp⟩, 1)
            | Except.error fe =>
                if fe.name = "AbortError" then (Except.error fe, 1)
                else
                  (Except.error
                    ⟨"Error", combinedFailureMessage primaryName err fp fe⟩, 1)
        | _, _ =>
            if err.name = "TypeError" then
              (Except.error ⟨"Error", connectFailureMessage⟩, 0)
            else (Except.error err, 0)

theorem jsIncludes_of_parts (s pat : String) (l r : List Char)
    (h : s.data = l ++ (pat.data ++ r)) : jsIncludes s pat = true := by
  unfold jsIncludes
  rw [List.any_eq_true]
  refine ⟨pat.data ++ r, ?mem, ?pref⟩
  · rw [List.mem_tails, h]
    exact List.suffix_append l (pat.data ++ r)
  · rw [List.isPrefixOf_iff_prefix]
    exact List.prefix_append pat.data r

theorem combinedFailureMessage_describes_both (pn fp : String)
    (err fe : JsErr) :
    jsIncludes (combinedFailureMessage pn err fp fe) err.message = true
    ∧ jsIncludes (combinedFailureMessage pn err fp fe) fe.message = true := by
  constructor
  · apply jsIncludes_of_parts _ _
      ("主要服務 (" ++ pn ++ ") 失敗: ").data
      ((". \n備援服務 (" ++ fp ++ ") 也失敗: ").data ++ fe.message.data)
    simp [combinedFailureMessage, String.data_append, List.append_assoc]
  · apply jsIncludes_of_parts _ _
      ("主要服務 (" ++ pn ++ ") 失敗: " ++ err.message ++
        ". \n備援服務 (" ++ fp ++ ") 也失敗: ").data []
    simp [combinedFailureMessage, String.data_append, List.append_assoc]

/-- Claim C5: with failover enabled and a backup configured, a
non-cancellation primary failure invokes the backup exactly once; a backup
success is reported with `usedFailover = true` and the backup's identity; a
non-cancellation backup failure raises a single combined error describing
both failures; and a cancellation of either call is propagated immediately
with no (further) failover invocation. -/
theorem claim5_failover_protocol {R : Type} :
    (∀ (primary backup : Except JsErr R) (err : JsErr) (fp pn : String),
      primary = Except.error err → err.name ≠ "AbortError" →
      (generateTags primary backup true (some fp) pn).2 = 1)
    ∧ (∀ (primary backup : Except JsErr R) (err : JsErr) (r : R)
        (fp pn : String),
      primary = Except.error err → err.name ≠ "AbortError" →
      backup = Except.ok r →
      (generateTags primary backup true (some fp) pn).1 =
        Except.ok ⟨r, true, fp⟩)
    ∧ (∀ (primary backup : Except JsErr R) (err fe : JsErr) (fp pn : String),
      primary = Except.error err → err.name ≠ "AbortError" →
      backup = Except.error fe → fe.name ≠ "AbortError" →
      (generateTags primary backup true (some fp) pn).1 =
        Except.error ⟨"Error", combinedFailureMessage pn err fp fe⟩
      ∧ jsIncludes (combinedFailureMessage pn err fp fe) err.message = true
      ∧ jsIncludes (combinedFailureMessage pn err fp fe) fe.message = true)
    ∧ (∀ (primary backup : Except JsErr R) (err : JsErr)
        (ef : Bool) (fpo : Option String) (pn : String),
      primary = Except.error err → err.name = "AbortError" →
      generateTags primary backup ef fpo pn = (Except.error err, 0))
    ∧ (∀ (primary backup : Except JsErr R) (err fe : JsErr) (fp pn : String),
      primary = Except.error err → err.name ≠ "AbortError" →
      backup = Except.error fe → fe.name = "AbortError" →
      generateTags primary backup true (some fp) pn =
        (Except.error fe, 1)) := by
  refine ⟨?once, ?ok, ?both, ?abort1, ?abort2⟩
  · intro primary backup err fp pn hp hne
    subst hp
    unfold generateTags
    try dsimp only
    rw [if_neg hne]
    cases backup with
    | ok r => rfl
    | error fe =>
        try dsimp only
        by_cases hfe : fe.name = "AbortError"
        · rw [if_pos hfe]
        · rw [if_neg hfe]
  · intro primary backup err r fp pn hp hne hb
    subst hp
    subst hb
    unfold generateTags
    try dsimp only
    rw [if_neg hne]
  · intro primary backup err fe fp pn hp hne hb hfene
    subst hp
    subst hb
    refine ⟨?_, (combinedFailureMessage_describes_both pn fp err fe).1,
      (combinedFailureMessage_describes_both pn fp err fe).2⟩
    unfold generateTags
    try dsimp only
    rw [if_neg hne]
    try dsimp only
    rw [if_neg hfene]
  · intro primary backup err ef fpo pn hp habort
    subst hp
    unfold generateTags
    try dsimp only
    rw [if_pos habort]
  · intro primary backup err fe fp pn hp hne hb hfe
    subst hp
    subst hb
    unfold generateTags
    try dsimp only
    rw [if_neg hne]
    try dsimp only
    rw [if_pos hfe]

/-- Witness for C5: primary fails with an authentication error, backup
succeeds — the response carries `usedFailover = true` and the backup's
identity, and the backup was invoked exactly once. -/
theorem claim5_failover_protocol_witness :
    (generateTags (Except.error ⟨"Error", "驗證失敗：API 金鑰無效或遺失。"⟩)
      (Except.ok 7) true (some "openai") "gemini").1 =
      Except.ok ⟨7, true, "openai"⟩
    ∧ (generateTags (Except.error ⟨"Error", "驗證失敗：API 金鑰無效或遺失。"⟩)
      (Except.ok 7) true (some "openai") "gemini").2 = 1 := by
  constructor
  · exact claim5_failover_protocol.2.1
      (Except.error ⟨"Error", "驗證失敗：API 金鑰無效或遺失。"⟩)
      (Except.ok 7) ⟨"Error", "驗證失敗：API 金鑰無效或遺失。"⟩ 7 "openai"
      "gemini" rfl (by decide) rfl
  · exact claim5_failover_protocol.1
      (Except.error ⟨"Error", "驗證失敗：API 金鑰無效或遺失。"⟩)
      (Except.ok 7) ⟨"Error", "驗證失敗：API 金鑰無效或遺失。"⟩ "openai"
      "gemini" rfl (by decide)

/- ### Batch Generation Controller (`generateBatch`, src/unnamed/part_001
lines 123-193)

The loop iterates over the snapshot `batchItems`; status updates go through
`setBatchItems(prev => prev.map(i => i.id === item.id ? ... : i))`, modelled
by `markStatus` over the evolving state list.  The per-item `generateTags`
outcome is a function of the item id; `abortedBefore` models the value of
`abortControllerRef.current?.signal.aborted` observed at the top of the
iteration (a cancellation that lands while an item is in flight appears as
an `AbortError` outcome for that item).  UI-only effects
(`setActiveBatchItemId`, `setIsProcessing`, the toast) are not modelled; the
second result component is the aggregate summary, `none` when
`setBatchSummary` is not called. -/

inductive BatchStatus
  | pending
  | processing
  | completed
  | error (msg : String)
deriving DecidableEq, Repr

structure BatchItem where
  id : String
  status : BatchStatus
deriving DecidableEq, Repr

/-- `setBatchItems(prev => prev.map(i => i.id === id ? {...i, status} : i))`. -/
def markStatus (items : List BatchItem) (id : String) (st : BatchStatus) :
    List BatchItem :=
  items.map (fun i => if i.id = id then { i with status := st } else i)

/-- The `for (const item of batchItems)` loop of `generateBatch`,
accumulating `completedCount` and `failedCount`. -/
def generateBatchGo (outcome : String → Except JsErr Unit)
    (abortedBefore : String → Bool) (state : List BatchItem) :
    List BatchItem → Nat → Nat → List BatchItem × Nat × Nat
  | [], c, f => (state, c, f)
  | item :: rest, c, f =>
      if abortedBefore item.id then (state, c, f)
      else if item.status = BatchStatus.completed then
        generateBatchGo outcome abortedBefore state rest (c + 1) f
      else
        let st1 := markStatus state item.id BatchStatus.processing
        match outcome item.id with
        | Except.ok _ =>
            generateBatchGo outcome abortedBefore
              (markStatus st1 item.id BatchStatus.completed) rest (c + 1) f
        | Except.error e =>
            if e.name = "AbortError" then
              (markStatus st1 item.id BatchStatus.pending, c, f)
            else
              generateBatchGo outcome abortedBefore
                (markStatus st1 item.id (BatchStatus.error e.message)) rest c
                (f + 1)

/-- `generateBatch` (src/unnamed/part_001 lines 123-193): run the loop over
the snapshot, then emit the aggregate summary iff
`completedCount > 0 || failedCount > 0`. -/
def generateBatch (items : List BatchItem)
    (outcome : String → Except JsErr Unit)
    (abortedBefore : String → Bool) :
    List BatchItem × Option (Nat × Nat) :=
  match generateBatchGo outcome abortedBefore items items 0 0 with
  | (st, c, f) => (st, if 0 < c ∨ 0 < f then some (c, f) else none)

theorem markStatus_append (l1 l2 : List BatchItem) (id : String)
    (st : BatchStatus) :
    markStatus (l1 ++ l2) id st = markStatus l1 id st ++ markStatus l2 id st :=
  List.map_append _ l1 l2

theorem markStatus_not_mem (l : List BatchItem) (id : String)
    (st : BatchStatus) (h : id ∉ l.map BatchItem.id) :
    markStatus l id st = l := by
  induction l with
  | nil => rfl
  | cons x xs ih =>
      simp only [List.map_cons, List.mem_cons, not_or] at h
      unfold markStatus
      rw [List.map_cons, if_neg (fun hc => h.1 hc.symm)]
      exact congrArg _ (ih h.2)

theorem markStatus_cons_self (x : BatchItem) (l : List BatchItem)
    (st : BatchStatus) :
    markStatus (x :: l) x.id st =
      { x with status := st } :: markStatus l x.id st := by
  unfold markStatus
  rw [List.map_cons, if_pos rfl]

theorem markStatus_markStatus (l : List BatchItem) (id : String)
    (st1 st2 : BatchStatus) :
    markStatus (markStatus l id st1) id st2 = markStatus l id st2 := by
  induction l with
  | nil => rfl
  | cons x xs ih =>
      unfold markStatus at *
      by_cases h : x.id = id
      · simp [List.map_cons, h, ih]
      · simp [List.map_cons, h, ih]

theorem nodup_split_not_mem {l1 l2 : List BatchItem} {a : BatchItem}
    (h : ((l1 ++ a :: l2).map BatchItem.id).Nodup) :
    a.id ∉ l1.map BatchItem.id ∧ a.id ∉ l2.map BatchItem.id := by
  rw [List.map_append, List.map_cons, List.nodup_append] at h
  obtain ⟨hA, hB, hdisj⟩ := h
  rw [List.nodup_cons] at hB
  exact ⟨fun hc => hdisj hc (List.mem_cons_self _ _), hB.1⟩

theorem generateBatchGo_abort_run (outcome : String → Except JsErr Unit)
    (item : BatchItem) (ys : List BatchItem)
    (hitem_st : item.status ≠ BatchStatus.completed)
    (hitem_out : outcome item.id = Except.error abortErr) :
    ∀ (xs pre : List BatchItem) (c f : Nat),
      ((pre ++ xs ++ item :: ys).map BatchItem.id).Nodup →
      (∀ x ∈ xs, x.status = BatchStatus.pending ∧
        outcome x.id = Except.ok ()) →
      generateBatchGo outcome (fun _ => false)
          (pre ++ xs ++ item :: ys) (xs ++ item :: ys) c f =
        (pre ++ xs.map (fun x => { x with status := BatchStatus.completed })
          ++ { item with status := BatchStatus.pending } :: ys,
         c + xs.length, f) := by
  intro xs
  induction xs with
  | nil =>
      intro pre c f hnodup hxs
      simp only [List.append_nil, List.nil_append, List.map_nil] at hnodup ⊢
      obtain ⟨hpre, hys⟩ := nodup_split_not_mem hnodup
      rw [generateBatchGo]
      simp only [Bool.false_eq_true, if_false, if_neg hitem_st, hitem_out]
      rw [if_pos (show abortErr.name = "AbortError" from rfl)]
      rw [markStatus_markStatus, markStatus_append,
        markStatus_not_mem pre _ _ hpre, markStatus_cons_self,
        markStatus_not_mem ys _ _ hys]
      simp
  | cons x xs ih =>
      intro pre c f hnodup hxs
      obtain ⟨hxst, hxout⟩ := hxs x (List.mem_cons_self _ _)
      have hassoc : pre ++ (x :: xs) ++ item :: ys =
          pre ++ x :: (xs ++ item :: ys) := by simp
      have hnodup2 : ((pre ++ x :: (xs ++ item :: ys)).map
          BatchItem.id).Nodup := by rw [← hassoc]; exact hnodup
      obtain ⟨hxpre, hxrest⟩ := nodup_split_not_mem hnodup2
      rw [hassoc, List.cons_append, generateBatchGo]
      simp only [Bool.false_eq_true, if_false,
        if_neg (show ¬ x.status = BatchStatus.completed from by
          rw [hxst]; intro hc; cases hc), hxout]
      rw [markStatus_markStatus]
      have hstate : markStatus (pre ++ x :: (xs ++ item :: ys)) x.id
          BatchStatus.completed =
          (pre ++ [{ x with status := BatchStatus.completed }]) ++ xs ++
            item :: ys := by
        rw [markStatus_append, markStatus_not_mem pre _ _ hxpre,
          markStatus_cons_self, markStatus_not_mem _ _ _ hxrest]
        simp
      rw [hstate]
      have hres := ih (pre ++ [{ x with status := BatchStatus.completed }])
        (c + 1) f
        (by
          simp only [List.map_append, List.map_cons, List.map_nil,
            List.append_assoc, List.nil_append, List.cons_append,
            List.singleton_append] at hnodup ⊢
          exact hnodup)
        (fun y hy => hxs y (List.mem_cons_of_mem _ hy))
      simp only [List.append_assoc, List.singleton_append] at hres
      simp only [List.append_assoc, List.map_cons, List.cons_append,
        List.length_cons]
      rw [show c + (xs.length + 1) = c + 1 + xs.length from by omega]
      exact hres

/-- Per-item outcomes for the C7 scenario: items 1 and 2 succeed, item 3 is
cancelled mid-processing. -/
def outcome7 : String → Except JsErr Unit :=
  fun id => if id = "3" then Except.error abortErr else Except.ok ()

/-- Counterexample to claim C7, at the spec's own scenario: a batch of 5
pending items where items 1-2 complete and cancellation lands while item 3
is processing.  Item 3 is reset to `pending` and items 4-5 stay untouched
(that much holds), but the aggregate report IS emitted — the summary is
`some (2, 0)`, not the claimed non-emission — because the source emits it
whenever `completedCount > 0 || failedCount > 0`. -/
theorem claim7_counterexample :
    generateBatch
      [⟨"1", BatchStatus.pending⟩, ⟨"2", BatchStatus.pending⟩,
        ⟨"3", BatchStatus.pending⟩, ⟨"4", BatchStatus.pending⟩,
        ⟨"5", BatchStatus.pending⟩]
      outcome7 (fun _ => false) =
      ([⟨"1", BatchStatus.completed⟩, ⟨"2", BatchStatus.completed⟩,
        ⟨"3", BatchStatus.pending⟩, ⟨"4", BatchStatus.pending⟩,
        ⟨"5", BatchStatus.pending⟩],
       some (2, 0)) := by
  decide

/-- Claim C7, amended to what the code does: when cancellation lands while
an item is processing, that item is reset to `pending`, the loop stops and
all later items keep their prior status; the aggregate completed/failed
report IS emitted with the counts accumulated before the cancellation
whenever at least one item had completed or failed, and is omitted only when
none had. -/
theorem claim7_amended_cancellation (xs : List BatchItem) (item : BatchItem)
    (ys : List BatchItem) (outcome : String → Except JsErr Unit)
    (hnodup : ((xs ++ item :: ys).map BatchItem.id).Nodup)
    (hxs : ∀ x ∈ xs, x.status = BatchStatus.pending ∧
      outcome x.id = Except.ok ())
    (hitem_st : item.status ≠ BatchStatus.completed)
    (hitem_out : outcome item.id = Except.error abortErr) :
    generateBatch (xs ++ item :: ys) outcome (fun _ => false) =
      (xs.map (fun x => { x with status := BatchStatus.completed })
        ++ { item with status := BatchStatus.pending } :: ys,
       if 0 < xs.length then some (xs.length, 0) else none) := by
  unfold generateBatch
  have h := generateBatchGo_abort_run outcome item ys hitem_st hitem_out xs
    [] 0 0 (by simpa using hnodup) hxs
  simp only [List.nil_append, Nat.zero_add] at h
  rw [h]
  simp

/-- Witness for the amended C7: cancellation on the very first item of a
2-item batch resets it to `pending`, leaves the second untouched, and emits
no aggregate report (no item had completed or failed). -/
theorem claim7_amended_witness :
    generateBatch [⟨"a", BatchStatus.pending⟩, ⟨"b", BatchStatus.pending⟩]
      (fun _ => Except.error abortErr) (fun _ => false) =
      ([⟨"a", BatchStatus.pending⟩, ⟨"b", BatchStatus.pending⟩], none) := by
  have h := claim7_amended_cancellation [] ⟨"a", BatchStatus.pending⟩
    [⟨"b", BatchStatus.pending⟩] (fun _ => Except.error abortErr)
    (by decide) (by simp) (by decide) rfl
  simpa using h

/- ### Single-Item Generation Controller (`useSingleGenerator`,
src/unnamed/part_000)

Event model of the controller under the browser event loop.  Two atomic
turns drive the shared state: the synchronous prefix of `generate()`
(lines 62-66: abort the installed controller if any, install a fresh
`AbortController`, launch the awaited `generateTags` call), and the
settlement turn of one in-flight call (the `try`/`catch`/`finally`
continuation, lines 104-133).  Generations and tokens are numbered in
creation order.  Because microtasks drain before the next user task, a call
whose token is cancelled can only settle through the `AbortError` branch,
and a call whose token is not cancelled settles `ok`/`fail`; `validEvent`
encodes exactly this (the reading most charitable to the claim).  The
settlement turn appends the success effects (`setGeneratedResult`, success
toast, `onSuccess`) or the failure effects (`setError`, failure toast) to
the log — the `AbortError` branch performs neither — and its `finally`
unconditionally clears the shared `abortControllerRef` (line 132),
regardless of whether a newer generation has installed its own controller
there. -/

inductive SGOutcome
  | ok
  | fail
  | aborted
deriving DecidableEq, Repr

inductive SGEffect
  | started (gen : Nat)
  | success (gen : Nat)
  | failure (gen : Nat)
deriving DecidableEq, Repr

structure SGState where
  ref : Option Nat
  cancelled : List Nat
  nextToken : Nat
  inFlight : List (Nat × Nat)
  nextGen : Nat
  log : List SGEffect
deriving DecidableEq, Repr

def initSG : SGState := ⟨none, [], 0, [], 0, []⟩

inductive SGEvent
  | start
  | settle (gen : Nat) (out : SGOutcome)
deriving DecidableEq, Repr

/-- One atomic turn.  `start`: lines 62-66 — abort the installed token (if
any), install a fresh one, register the new in-flight generation.  `settle`:
lines 104-133 — log the success or failure effects (nothing for the
`AbortError` branch, line 121-123), and in `finally` clear the shared
controller reference (line 132). -/
def applyEvent (s : SGState) : SGEvent → SGState
  | SGEvent.start =>
      let cancelled :=
        match s.ref with
        | some t => t :: s.cancelled
        | none => s.cancelled
      { ref := some s.nextToken, cancelled := cancelled,
        nextToken := s.nextToken + 1,
        inFlight := (s.nextGen, s.nextToken) :: s.inFlight,
        nextGen := s.nextGen + 1,
        log := s.log ++ [SGEffect.started s.nextGen] }
  | SGEvent.settle gen out =>
      { ref := none,
        cancelled := s.cancelled,
        nextToken := s.nextToken,
        inFlight := s.inFlight.filter (fun p => p.1 != gen),
        nextGen := s.nextGen,
        log := s.log ++
          (match out with
          | SGOutcome.ok => [SGEffect.success gen]
          | SGOutcome.fail => [SGEffect.failure gen]
          | SGOutcome.aborted => []) }

def tokenOf (s : SGState) (gen : Nat) : Option Nat :=
  (s.inFlight.find? (fun p => p.1 == gen)).map Prod.snd

/-- Admissibility of a turn: only an in-flight generation settles; an
`AbortError` settlement requires its token cancelled, an `ok`/`fail`
settlement requires it not cancelled. -/
def validEvent (s : SGState) : SGEvent → Bool
  | SGEvent.start => true
  | SGEvent.settle gen out =>
      match tokenOf s gen with
      | none => false
      | some t =>
          match out with
          | SGOutcome.aborted => s.cancelled.contains t
          | _ => ! s.cancelled.contains t

def runEvents : SGState → List SGEvent → Option SGState
  | s, [] => some s
  | s, e :: es =>
      if validEvent s e then runEvents (applyEvent s e) es else none

/-- The cancellation tokens still attached to in-flight generations that
have not been cancelled. -/
def nonCancelledInFlightTokens (s : SGState) : List Nat :=
  (s.inFlight.map Prod.snd).filter (fun t => ! s.cancelled.contains t)

/-- Counterexample to claim C8.  The admissible trace: start generation 0;
start generation 1 (cancelling token 0); generation 0's call settles with
`AbortError`, whose `finally` clears the shared controller reference even
though generation 1 is still in flight; start generation 2 — the reference
is empty, so nothing is cancelled and token 1 stays live: two non-cancelled
tokens now exist for the single-item scope.  Generation 1 then settles
successfully, logging its success effects after generation 2 started. -/
theorem claim8_counterexample :
    (runEvents initSG
      [SGEvent.start, SGEvent.start, SGEvent.settle 0 SGOutcome.aborted,
        SGEvent.start]).map nonCancelledInFlightTokens = some [2, 1]
    ∧ (runEvents initSG
      [SGEvent.start, SGEvent.start, SGEvent.settle 0 SGOutcome.aborted,
        SGEvent.start, SGEvent.settle 1 SGOutcome.ok]).map SGState.log =
      some [SGEffect.started 0, SGEffect.started 1, SGEffect.started 2,
        SGEffect.success 1] := by
  decide

/-- Token ids live below `nextToken` in every reachable state. -/
def SGBounded (s : SGState) : Prop :=
  (∀ t ∈ s.cancelled, t < s.nextToken) ∧
  (∀ t, s.ref = some t → t < s.nextToken)

theorem sgBounded_apply {s : SGState} (h : SGBounded s) (e : SGEvent) :
    SGBounded (applyEvent s e) := by
  obtain ⟨hc, hr⟩ := h
  cases e with
  | start =>
      constructor
      · intro t ht
        simp only [applyEvent] at ht ⊢
        cases href : s.ref with
        | none =>
            rw [href] at ht
            have := hc t ht
            omega
        | some t0 =>
            rw [href] at ht
            rcases List.mem_cons.mp ht with ht | ht
            · subst ht
              have := hr t href
              omega
            · have := hc t ht
              omega
      · intro t ht
        simp only [applyEvent, Option.some.injEq] at ht ⊢
        omega
  | settle gen out =>
      constructor
      · intro t ht
        simp only [applyEvent] at ht
        exact hc t ht
      · intro t ht
        simp only [applyEvent] at ht
        cases ht

theorem runEvents_bounded :
    ∀ (es : List SGEvent) (s0 s : SGState), SGBounded s0 →
      runEvents s0 es = some s → SGBounded s := by
  intro es
  induction es with
  | nil =>
      intro s0 s h0 hrun
      simp only [runEvents] at hrun
      cases hrun
      exact h0
  | cons e es ih =>
      intro s0 s h0 hrun
      simp only [runEvents] at hrun
      by_cases hv : validEvent s0 e = true
      · rw [if_pos hv] at hrun
        exact ih _ s (sgBounded_apply h0 e) hrun
      · rw [if_neg hv] at hrun
        cases hrun

/-- Claim C8, amended to what the code guarantees: in every reachable state
of the single-item scope, starting a new generation cancels the token
currently installed in the controller reference (when one is installed) and
installs a fresh, non-cancelled token.  (The full claim fails: a stale
generation's cleanup clears the shared reference, after which the current
in-flight token is no longer cancelled by a new start — see the
counterexample.) -/
theorem claim8_amended_start_cancels_installed (events : List SGEvent)
    (s : SGState) (h : runEvents initSG events = some s) :
    (applyEvent s SGEvent.start).ref = some s.nextToken
    ∧ s.nextToken ∉ (applyEvent s SGEvent.start).cancelled
    ∧ (∀ t, s.ref = some t → t ∈ (applyEvent s SGEvent.start).cancelled) := by
  have hbound := runEvents_bounded events initSG s
    (by constructor <;> simp [initSG]) h
  obtain ⟨hc, hr⟩ := hbound
  refine ⟨rfl, ?fresh, ?prev⟩
  · simp only [applyEvent]
    cases href : s.ref with
    | none =>
        intro hmem
        have := hc s.nextToken hmem
        omega
    | some t0 =>
        intro hmem
        rcases List.mem_cons.mp hmem with hm | hm
        · have := hr t0 href
          omega
        · have := hc s.nextToken hm
          omega
  · intro t ht
    simp only [applyEvent, ht]
    exact List.mem_cons_self _ _

/-- Witness for the amended C8: after the trace `[start]` the state holds
token 0 installed; a second start cancels token 0 and installs the fresh,
non-cancelled token 1. -/
theorem claim8_amended_witness :
    (applyEvent ⟨some 0, [], 1, [(0, 0)], 1, [SGEffect.started 0]⟩
      SGEvent.start).ref = some 1
    ∧ (1 : Nat) ∉ (applyEvent ⟨some 0, [], 1, [(0, 0)], 1,
      [SGEffect.started 0]⟩ SGEvent.start).cancelled
    ∧ ∀ t, (⟨some 0, [], 1, [(0, 0)], 1, [SGEffect.started 0]⟩ :
        SGState).ref = some t →
      t ∈ (applyEvent ⟨some 0, [], 1, [(0, 0)], 1, [SGEffect.started 0]⟩
        SGEvent.start).cancelled :=
  claim8_amended_start_cancels_installed [SGEvent.start]
    ⟨some 0, [], 1, [(0, 0)], 1, [SGEffect.started 0]⟩ (by decide)

/- ### Provider post-processing (`GeminiProvider.generateTags`,
src/services/geminiProvider.ts lines 156-181)

After the retried network call is parsed, the provider runs
`parsedResult.tags = normalizeTags(parsedResult.tags, targetLang)`
(lines 174-178).  The `tagLibraryCsv` argument of `generateTags` is in scope
there but is interpolated into the prompt only; it is not passed to
`normalizeTags`, whose lookup index is built from the module constant
`tagDataCsv` imported from `lib/tagData` (src/unnamed/part_005 lines 2, 36) —
a data file outside the analysed sources, represented as the explicit
`tagDataCsv` parameter. -/
def providerNormalizeTags (tagDataCsv tagLibraryCsv : String)
    (parsedTags : List GeneratedTag) (targetLang : Lang) :
    List GeneratedTag :=
  normalizeTags tagDataCsv parsedTags targetLang

/-- Claim C9: for a fixed parsed tag list and target language, the
provider's tag normalization is independent of the `tagLibraryCsv` string
supplied to `generateTags`: two calls differing only in the supplied library
text produce identical normalized tag lists, both equal to normalizing with
the index built solely from the compiled-in dataset. -/
theorem claim9_library_noninterference (tagDataCsv lib1 lib2 : String)
    (parsedTags : List GeneratedTag) (lang : Lang) :
    providerNormalizeTags tagDataCsv lib1 parsedTags lang =
      providerNormalizeTags tagDataCsv lib2 parsedTags lang
    ∧ providerNormalizeTags tagDataCsv lib1 parsedTags lang =
      normalizeTags tagDataCsv parsedTags lang :=
  ⟨rfl, rfl⟩
